import Mathlib

/-!
Verification of the MedSo dev-mode file-backed content store against its
specification.  The definitions below are a shallow embedding of the
development API registered in `server/routes` (the `/dev/save-json`,
`/dev/upload` and `DELETE /dev/upload` handlers) together with the client
helpers (`loadJsonData`, the drag-reorder save mutation).

Modelling conventions:
* JavaScript strings are Lean `String`s; a missing (`undefined`) string field
  is modelled as `""`, which is behaviourally identical under the `||`
  fallback chains the code uses.
* A record of a JSON collection is modelled by the fields the server code
  actually inspects (`displayOrder`, `name`, `title`) plus an opaque `id`
  standing for the rest of the record.
* `String.prototype.localeCompare` is modelled as code-point lexicographic
  comparison (`strCmp`): ICU collation is environment dependent, while every
  concrete comparison appearing in the claims is between plain ASCII strings
  on which the two orders agree.
* `Array.prototype.sort` is required by ECMAScript 2019+ to be stable; we
  model it with a stable insertion sort, which produces the same output as
  any stable sort whenever the comparator induces a total preorder.
* The filesystem behind `fs.writeFile`/static `/data` serving is modelled as
  a map from file names to stored contents; `JSON.stringify`/`JSON.parse`
  round-tripping of plain data is the identity at this level.
-/

/-- Test whether `pat` is an initial segment of `l`
(JS `String.prototype.startsWith` on character lists, also reused for path
segment lists). -/
def startsSeq [BEq α] : List α → List α → Bool
  | [], _ => true
  | _ :: _, [] => false
  | a :: as, b :: bs => a == b && startsSeq as bs

/-- Test whether `pat` occurs as a contiguous subsequence of `l`
(JS `String.prototype.includes`). -/
def hasSeq [BEq α] (pat : List α) : List α → Bool
  | [] => startsSeq pat []
  | c :: cs => startsSeq pat (c :: cs) || hasSeq pat cs

/-- JS `s.endsWith suffix`. -/
def strEndsWith (s sfx : String) : Bool :=
  startsSeq sfx.data.reverse s.data.reverse

/-- JS `s.includes pat`. -/
def strContains (s pat : String) : Bool :=
  hasSeq pat.data s.data

/-- JS `s.startsWith pat`. -/
def strStartsWith (s pat : String) : Bool :=
  startsSeq pat.data s.data

/-- Three-way code-point comparison of character lists; the model of
`String.prototype.localeCompare` (see the header comment). -/
def cmpChars : List Char → List Char → Int
  | [], [] => 0
  | [], _ :: _ => -1
  | _ :: _, [] => 1
  | a :: as, b :: bs => if a < b then -1 else if b < a then 1 else cmpChars as bs

/-- Model of `a.localeCompare(b)`. -/
def strCmp (a b : String) : Int :=
  cmpChars a.data b.data

/-- ASCII lower-casing of one character (`String.prototype.toLowerCase` is
only ever applied to file extensions and MIME fragments here). -/
def lowerChar (c : Char) : Char :=
  if 'A' ≤ c ∧ c ≤ 'Z' then Char.ofNat (c.toNat + 32) else c

/-- Model of `s.toLowerCase()`. -/
def lowerStr (s : String) : String :=
  String.mk (s.data.map lowerChar)

/-- Helper for `extname`: runs over the *reversed* character list and returns
the extension characters (in forward order) if a non-leading dot exists. -/
def extAux : List Char → Option (List Char)
  | [] => none
  | c :: cs =>
    if c = '.' then (if cs.isEmpty then none else some ['.'])
    else (extAux cs).map (fun e => e ++ [c])

/-- Model of Node's `path.extname`: the substring from the last `.` of the
name (empty if there is no dot or the only dot leads the name). -/
def extname (s : String) : String :=
  match extAux s.data.reverse with
  | none => ""
  | some e => String.mk e

/-- One record of a JSON collection, carrying exactly the fields the
`/dev/save-json` sort comparator reads.  `displayOrder` is `none` when the
field is absent from the record (`undefined` in JS); `name`/`title` are `""`
when absent.  `id` stands for the rest of the record's payload. -/
structure Record where
  id : String
  displayOrder : Option Int
  name : String
  title : String
deriving DecidableEq

/-- The comparator's numeric coercion `(r.displayOrder || 0)`. -/
def dval (r : Record) : Int :=
  r.displayOrder.getD 0

/-- The comparator's secondary key `r.name || r.title || ''`. -/
def secKey (r : Record) : String :=
  if r.name ≠ "" then r.name else if r.title ≠ "" then r.title else ""

/-- The `/dev/save-json` sort comparator:
`(a, b) => { if (a.displayOrder !== b.displayOrder) return (a.displayOrder || 0) - (b.displayOrder || 0);
  const nameA = a.name || a.title || ''; const nameB = b.name || b.title || '';
  return nameA.localeCompare(nameB); }`. -/
def cmpRecords (a b : Record) : Int :=
  if a.displayOrder ≠ b.displayOrder then dval a - dval b
  else strCmp (secKey a) (secKey b)

/-- Stable insertion of `r` into an already handled list: `r` goes in front
of the first element `x` with `¬ ltb x r`, so elements the comparator deems
equal keep their original relative order. -/
def insertSorted (ltb : Record → Record → Bool) (r : Record) :
    List Record → List Record
  | [] => [r]
  | x :: xs => if ltb x r then x :: insertSorted ltb r xs else r :: x :: xs

/-- Stable sort by the boolean strict comparator `ltb`.  This models
`Array.prototype.sort` with a numeric comparator `c` via
`ltb x r = (c x r < 0)` (stability is mandated by ECMAScript 2019+). -/
def stableSort (ltb : Record → Record → Bool) : List Record → List Record
  | [] => []
  | x :: xs => insertSorted ltb x (stableSort ltb xs)

/-- The copy-and-sort `[...content].sort(comparator)` performed by `/dev/save-json`. -/
def sortRecords (l : List Record) : List Record :=
  stableSort (fun a b => decide (cmpRecords a b < 0)) l

/-- The body of a saved collection: either a JSON array of records or any
other JSON value (left opaque — the endpoint only inspects arrays). -/
inductive Content where
  | arr (records : List Record)
  | other (value : String)
deriving DecidableEq

/-- Response of the save endpoint: `{ok:true, count}` or `{error}` with an
HTTP status. -/
inductive SaveResult where
  | ok (count : Nat)
  | error (status : Nat) (message : String)
deriving DecidableEq

/-- The data directory: file name ↦ stored content. -/
abbrev Store := String → Option Content

/-- Model of `fs.writeFile` into the data directory (whole-file overwrite). -/
def Store.set (s : Store) (f : String) (c : Content) : Store :=
  fun g => if g = f then some c else s g

/-- A data directory with no files. -/
def emptyStore : Store := fun _ => none

/-- The client helper `loadJsonData`: fetch `/data/<file>` (served statically
from the data directory) and parse it. -/
def loadJsonData (store : Store) (file : String) : Option Content :=
  store file

/-- The save endpoint's rejection guard:
`!file?.endsWith(".json") || file.includes("..") || file.includes("/")`. -/
def invalidFileName (file : String) : Bool :=
  !(strEndsWith file ".json") || strContains file ".." || strContains file "/"

/-- The error message returned when the programs cap is exceeded. -/
def programsLimitMsg : String :=
  "Programs are limited to a maximum of 4 items. Please remove some programs before adding new ones."

/-- The `/dev/save-json` handler (post-token-gate): filename guard, stable
auto-sort of arrays, programs cardinality cap checked before the write, then
whole-file overwrite.  Non-array content is written unchanged with count 1. -/
def devSaveJson (store : Store) (file : String) (content : Content) :
    Store × SaveResult :=
  if invalidFileName file then (store, SaveResult.error 400 "invalid file")
  else
    match content with
    | Content.arr records =>
      let dataToSave := sortRecords records
      if file = "programs.json" ∧ dataToSave.length > 4 then
        (store, SaveResult.error 400 programsLimitMsg)
      else
        (Store.set store file (Content.arr dataToSave),
          SaveResult.ok dataToSave.length)
    | Content.other v =>
      (Store.set store file (Content.other v), SaveResult.ok 1)

/-- The client's drag-reorder save:
`ordered.map((member, index) => ({...member, displayOrder: index}))`. -/
def reorderSave (l : List Record) : List Record :=
  l.enum.map (fun p => { p.2 with displayOrder := some (p.1 : Int) })

/-- The alternatives of the upload filter's regex `/jpeg|jpg|png|webp|gif/`. -/
def allowedSubstrs : List String :=
  ["jpeg", "jpg", "png", "webp", "gif"]

/-- Model of `/jpeg|jpg|png|webp|gif/.test(s)` : the (unanchored) regex merely asks
whether `s` contains one of the alternatives as a substring. -/
def matchesAllowed (s : String) : Bool :=
  allowedSubstrs.any (fun pat => strContains s pat)

/-- The multer `fileFilter`: accept iff both the lower-cased extension of the
original name and the raw MIME type pass the regex test. -/
def fileFilterAccepts (originalname mimetype : String) : Bool :=
  matchesAllowed (lowerStr (extname originalname)) && matchesAllowed mimetype

/-- Modelled from the spec: the claim's reading of "the file extension falls
within the allowed image set {jpeg, jpg, png, webp, gif}" — the extension is
literally one of the five dotted suffixes (case-insensitively). -/
def specAllowedExt (e : String) : Bool :=
  [".jpeg", ".jpg", ".png", ".webp", ".gif"].contains (lowerStr e)

/-- Modelled from the spec: the claim's reading of "the MIME type falls
within the allowed image set" — one of the five image content types. -/
def specAllowedMime (m : String) : Bool :=
  ["image/jpeg", "image/jpg", "image/png", "image/webp", "image/gif"].contains m

/-- The upload category allow-list of `multer.diskStorage.destination`. -/
def allowedCategories : List String :=
  ["members", "news", "hero", "programs", "misc"]

/-- Model of `req.query.category as string || 'misc'` (empty/absent query falls back
to `misc`). -/
def rawCategory (q : String) : String :=
  if q = "" then "misc" else q

/-- Model of `allowedCategories.includes(category) ? category : 'misc'` — the
directory the uploaded file is actually stored under. -/
def storageCategory (q : String) : String :=
  if allowedCategories.contains (rawCategory q) then rawCategory q else "misc"

/-- The `/dev/upload` response's `publicPath`:
`` `/uploads/${category}/${req.file.filename}` `` built from the *raw*
requested category. -/
def uploadPublicPath (q filename : String) : String :=
  "/uploads/" ++ rawCategory q ++ "/" ++ filename

/-- The path (relative to `client/public`) where the uploaded file actually
lands: `path.join(UPLOAD_DIR, finalCategory)` plus the generated filename. -/
def uploadStoredPath (q filename : String) : String :=
  "uploads/" ++ storageCategory q ++ "/" ++ filename

/-- The delete endpoint's guard:
`!filePath || !filePath.startsWith('/uploads/')`. -/
def deleteGuardOk (p : String) : Bool :=
  !(p = "") && strStartsWith p "/uploads/"

/-- Split a path on `/` (accumulator holds the current segment reversed). -/
def splitSlashAux (cur : List Char) : List Char → List String
  | [] => [String.mk cur.reverse]
  | c :: cs =>
    if c = '/' then String.mk cur.reverse :: splitSlashAux [] cs
    else splitSlashAux (c :: cur) cs

/-- The non-trivial segments of a path string. -/
def pathSegs (p : String) : List String :=
  (splitSlashAux [] p.data).filter (fun s => s ≠ "" ∧ s ≠ ".")

/-- Normalisation performed by `path.join`: a `..` segment cancels the
preceding segment (kept verbatim when there is nothing left to cancel). -/
def normSegsAux (acc : List String) : List String → List String
  | [] => acc.reverse
  | s :: rest =>
    if s = ".." then
      match acc with
      | [] => normSegsAux [".."] rest
      | _ :: accTail => normSegsAux accTail rest
    else normSegsAux (s :: acc) rest

/-- The segments (relative to the process cwd) of
`path.join(process.cwd(), 'client', 'public', filePath)` — the file the
delete endpoint will `unlink`. -/
def resolvedDeleteSegs (p : String) : List String :=
  normSegsAux [] (["client", "public"] ++ pathSegs p)

/-- Whether the resolved delete target actually lies under the public uploads
root `client/public/uploads`. -/
def deleteTargetUnderRoot (p : String) : Bool :=
  startsSeq ["client", "public", "uploads"] (resolvedDeleteSegs p)

/-- Response of the delete endpoint. -/
inductive DeleteResult where
  | ok
  | invalidPath
  | notFound
deriving DecidableEq

/-- The `DELETE /dev/upload` handler over a filesystem modelled as the list
of resolved paths of existing files: prefix guard, `fs.access` existence
check, then `fs.unlink`. -/
def devDeleteUpload (fs : List (List String)) (p : String) :
    List (List String) × DeleteResult :=
  if !(deleteGuardOk p) then (fs, DeleteResult.invalidPath)
  else
    let t := resolvedDeleteSegs p
    if fs.contains t then (fs.filter (fun q => q ≠ t), DeleteResult.ok)
    else (fs, DeleteResult.notFound)

/-- Test `!TOKEN` : the environment token is absent or the empty string (both are
falsy in JS). -/
def tokenFalsy : Option String → Bool
  | none => true
  | some t => t == ""

/-- The `requireDevToken` middleware:
`if (!TOKEN || req.header("x-admin-token") !== TOKEN) return 401` — `true`
means the request passes the gate. -/
def requireDevToken (token header : Option String) : Bool :=
  !(tokenFalsy token || header != token)

/-- The lexicographic comparison the auto-sort implements on records whose
`displayOrder` coercions are consistent: ascending `displayOrder`, ties by
the secondary key. -/
def orderingPolicyLe (a b : Record) : Prop :=
  dval a < dval b ∨ (dval a = dval b ∧ strCmp (secKey a) (secKey b) ≤ 0)

/-- Boolean strict version of `orderingPolicyLe`, used to re-express the JS
comparator on consistent inputs. -/
def ltbLex (a b : Record) : Bool :=
  decide (dval a < dval b ∨ (dval a = dval b ∧ strCmp (secKey a) (secKey b) < 0))

/-- Concrete member record "Alice" from the spec's tie-break example. -/
def recAlice : Record :=
  { id := "m-alice", displayOrder := some 0, name := "Alice", title := "" }

/-- Concrete member record "Bob" from the spec's tie-break example. -/
def recBob : Record :=
  { id := "m-bob", displayOrder := some 0, name := "Bob", title := "" }

/-- A concrete program record (used by witnesses for the cardinality cap). -/
def progRec (i : Int) (t : String) : Record :=
  { id := "p" ++ t, displayOrder := some i, name := "", title := t }

/-- Every element of `insertSorted ltb r xs` is `r` or an element of `xs`. -/
theorem mem_insertSorted {ltb : Record → Record → Bool} {r y : Record} :
    ∀ {xs : List Record}, y ∈ insertSorted ltb r xs → y = r ∨ y ∈ xs := by
  intro xs
  induction xs with
  | nil => simp [insertSorted]
  | cons x xs ih =>
    simp only [insertSorted]
    split
    · intro h
      rcases List.mem_cons.mp h with h | h
      · exact Or.inr (by simp [h])
      · rcases ih h with h | h
        · exact Or.inl h
        · exact Or.inr (by simp [h])
    · intro h
      rcases List.mem_cons.mp h with h | h
      · exact Or.inl h
      · exact Or.inr h

/-- Stable insertion permutes `r :: xs`. -/
theorem insertSorted_perm (ltb : Record → Record → Bool) (r : Record) :
    ∀ xs : List Record, (insertSorted ltb r xs).Perm (r :: xs) := by
  intro xs
  induction xs with
  | nil => simp [insertSorted]
  | cons x xs ih =>
    simp only [insertSorted]
    split
    · exact (ih.cons x).trans (List.Perm.swap r x xs)
    · exact List.Perm.refl _

/-- The stable sort permutes its input. -/
theorem stableSort_perm (ltb : Record → Record → Bool) :
    ∀ l : List Record, (stableSort ltb l).Perm l := by
  intro l
  induction l with
  | nil => simp [stableSort]
  | cons x xs ih =>
    simp only [stableSort]
    exact (insertSorted_perm ltb x (stableSort ltb xs)).trans (ih.cons x)

/-- Insertion only looks at comparisons between list members and the inserted
element. -/
theorem insertSorted_congr {ltb ltb' : Record → Record → Bool} (r : Record) :
    ∀ xs : List Record, (∀ y ∈ xs, ltb y r = ltb' y r) →
      insertSorted ltb r xs = insertSorted ltb' r xs := by
  intro xs
  induction xs with
  | nil => intro _; rfl
  | cons x xs ih =>
    intro h
    have hx : ltb x r = ltb' x r := h x (by simp)
    simp only [insertSorted, hx]
    split
    · rw [ih (fun y hy => h y (by simp [hy]))]
    · rfl

/-- The stable sort only looks at comparisons between pairs of list members. -/
theorem stableSort_congr {ltb ltb' : Record → Record → Bool} :
    ∀ l : List Record, (∀ a ∈ l, ∀ b ∈ l, ltb a b = ltb' a b) →
      stableSort ltb l = stableSort ltb' l := by
  intro l
  induction l with
  | nil => intro _; rfl
  | cons x xs ih =>
    intro h
    have hs : stableSort ltb xs = stableSort ltb' xs :=
      ih (fun a ha b hb => h a (by simp [ha]) b (by simp [hb]))
    simp only [stableSort, hs]
    apply insertSorted_congr
    intro y hy
    have hy' : y ∈ xs := ((stableSort_perm ltb' xs).mem_iff).mp hy
    exact h y (by simp [hy']) x (by simp)

/-- A list on which no later element strictly precedes an earlier one is left
unchanged by the stable sort. -/
theorem stableSort_of_pairwise {ltb : Record → Record → Bool} :
    ∀ l : List Record, l.Pairwise (fun a b => ltb b a = false) →
      stableSort ltb l = l := by
  intro l
  induction l with
  | nil => intro _; rfl
  | cons x xs ih =>
    intro hp
    rcases List.pairwise_cons.mp hp with ⟨hx, hxs⟩
    simp only [stableSort, ih hxs]
    cases xs with
    | nil => rfl
    | cons y ys =>
      have hf : ltb y x = false := hx y (by simp)
      simp only [insertSorted]
      rw [if_neg (by simp [hf])]

/-- Swapping the arguments of the character comparison negates it. -/
theorem cmpChars_swap : ∀ as bs : List Char, cmpChars as bs = -(cmpChars bs as) := by
  intro as
  induction as with
  | nil => intro bs; cases bs <;> simp [cmpChars]
  | cons a as ih =>
    intro bs
    cases bs with
    | nil => simp [cmpChars]
    | cons b bs =>
      simp only [cmpChars]
      rcases lt_trichotomy a b with h | h | h
      · have h2 : ¬ b < a := lt_asymm h
        simp [h, h2]
      · subst h
        simp [lt_irrefl, ih bs]
      · have h2 : ¬ a < b := lt_asymm h
        simp [h, h2]

/-- Unpacking a non-positive head-to-head character comparison. -/
theorem cmpChars_cons_nonpos {x y : Char} {u v : List Char}
    (h : cmpChars (x :: u) (y :: v) ≤ 0) :
    x < y ∨ (x = y ∧ cmpChars u v ≤ 0) := by
  by_cases hxy : x < y
  · exact Or.inl hxy
  · by_cases hyx : y < x
    · simp [cmpChars, hxy, hyx] at h
    · refine Or.inr ⟨le_antisymm (le_of_not_lt hyx) (le_of_not_lt hxy), ?_⟩
      simpa [cmpChars, hxy, hyx] using h

/-- Non-positivity of the character comparison is transitive. -/
theorem cmpChars_nonpos_trans :
    ∀ as bs cs : List Char,
      cmpChars as bs ≤ 0 → cmpChars bs cs ≤ 0 → cmpChars as cs ≤ 0 := by
  intro as
  induction as with
  | nil =>
    intro bs cs _ _
    cases cs <;> simp [cmpChars]
  | cons a as ih =>
    intro bs cs h1 h2
    cases bs with
    | nil => simp [cmpChars] at h1
    | cons b bs =>
      cases cs with
      | nil => simp [cmpChars] at h2
      | cons c cs =>
        rcases cmpChars_cons_nonpos h1 with hab | ⟨hab, hr1⟩ <;>
          rcases cmpChars_cons_nonpos h2 with hbc | ⟨hbc, hr2⟩
        · have hac : a < c := lt_trans hab hbc
          simp [cmpChars, hac]
        · have hac : a < c := hbc ▸ hab
          simp [cmpChars, hac]
        · have hac : a < c := hab ▸ hbc
          simp [cmpChars, hac]
        · have hac : a = c := hab.trans hbc
          subst hab
          subst hac
          simp only [cmpChars, lt_irrefl, if_neg (lt_irrefl a)]
          simpa using ih bs cs hr1 hr2

/-- Antisymmetry of `strCmp`. -/
theorem strCmp_swap (a b : String) : strCmp a b = -(strCmp b a) :=
  cmpChars_swap a.data b.data

/-- Transitivity of `strCmp` on the non-positive side. -/
theorem strCmp_nonpos_trans {a b c : String}
    (h1 : strCmp a b ≤ 0) (h2 : strCmp b c ≤ 0) : strCmp a c ≤ 0 :=
  cmpChars_nonpos_trans a.data b.data c.data h1 h2

/-- The ordering policy relation is transitive. -/
theorem orderingPolicyLe_trans :
    ∀ a b c : Record, orderingPolicyLe a b → orderingPolicyLe b c →
      orderingPolicyLe a c := by
  intro a b c h1 h2
  rcases h1 with h1 | ⟨h1e, h1s⟩ <;> rcases h2 with h2 | ⟨h2e, h2s⟩
  · exact Or.inl (lt_trans h1 h2)
  · exact Or.inl (by omega)
  · exact Or.inl (by omega)
  · exact Or.inr ⟨by omega, strCmp_nonpos_trans h1s h2s⟩

/-- A true strict lexicographic comparison implies the policy order. -/
theorem ltbLex_true_le {x y : Record} (h : ltbLex x y = true) :
    orderingPolicyLe x y := by
  rcases of_decide_eq_true h with h | ⟨he, hs⟩
  · exact Or.inl h
  · exact Or.inr ⟨he, le_of_lt hs⟩

/-- A false strict lexicographic comparison implies the reverse policy
order. -/
theorem ltbLex_false_le {x y : Record} (h : ltbLex x y = false) :
    orderingPolicyLe y x := by
  have hx := of_decide_eq_false h
  rcases lt_trichotomy (dval y) (dval x) with hd | hd | hd
  · exact Or.inl hd
  · refine Or.inr ⟨hd, ?_⟩
    have hns : ¬ strCmp (secKey x) (secKey y) < 0 := by
      intro hs
      exact hx (Or.inr ⟨hd.symm, hs⟩)
    rw [strCmp_swap]
    omega
  · exact absurd (Or.inl hd) hx

/-- Inserting into a policy-sorted list keeps it policy-sorted, provided the
boolean comparator decides the policy order. -/
theorem pairwise_insertSorted (le : Record → Record → Prop)
    (ltb : Record → Record → Bool)
    (h1 : ∀ x y, ltb x y = true → le x y)
    (h2 : ∀ x y, ltb x y = false → le y x)
    (htr : ∀ a b c, le a b → le b c → le a c)
    (r : Record) :
    ∀ xs : List Record, xs.Pairwise le → (insertSorted ltb r xs).Pairwise le := by
  intro xs
  induction xs with
  | nil => intro _; simp [insertSorted]
  | cons x xs ih =>
    intro hp
    rcases List.pairwise_cons.mp hp with ⟨hx, hxs⟩
    simp only [insertSorted]
    by_cases hlt : ltb x r = true
    · rw [if_pos hlt]
      apply List.pairwise_cons.mpr
      refine ⟨?_, ih hxs⟩
      intro y hy
      rcases mem_insertSorted hy with rfl | hym
      · exact h1 x y hlt
      · exact hx y hym
    · have hf : ltb x r = false := by
        revert hlt
        cases ltb x r <;> simp
      rw [if_neg (by simp [hf])]
      apply List.pairwise_cons.mpr
      refine ⟨?_, hp⟩
      intro y hy
      rcases List.mem_cons.mp hy with rfl | hym
      · exact h2 y r hf
      · exact htr r x y (h2 x r hf) (hx y hym)

/-- The stable sort produces a policy-sorted list whenever the boolean
comparator decides the policy order. -/
theorem pairwise_stableSort (le : Record → Record → Prop)
    (ltb : Record → Record → Bool)
    (h1 : ∀ x y, ltb x y = true → le x y)
    (h2 : ∀ x y, ltb x y = false → le y x)
    (htr : ∀ a b c, le a b → le b c → le a c) :
    ∀ l : List Record, (stableSort ltb l).Pairwise le := by
  intro l
  induction l with
  | nil => simp [stableSort]
  | cons x xs ih =>
    simp only [stableSort]
    exact pairwise_insertSorted le ltb h1 h2 htr x _ ih

/-- Unfolding `/dev/save-json` on a valid file name and array content. -/
theorem devSaveJson_arr_eq (store : Store) (file : String) (l : List Record)
    (hv : invalidFileName file = false) :
    devSaveJson store file (Content.arr l) =
      if file = "programs.json" ∧ (sortRecords l).length > 4 then
        (store, SaveResult.error 400 programsLimitMsg)
      else
        (Store.set store file (Content.arr (sortRecords l)),
          SaveResult.ok (sortRecords l).length) := by
  unfold devSaveJson
  rw [if_neg (by simp [hv])]

/-- Unfolding `/dev/save-json` on a valid file name and non-array content. -/
theorem devSaveJson_other_eq (store : Store) (file : String) (v : String)
    (hv : invalidFileName file = false) :
    devSaveJson store file (Content.other v) =
      (Store.set store file (Content.other v), SaveResult.ok 1) := by
  unfold devSaveJson
  rw [if_neg (by simp [hv])]

/-- Inversion: a successful save of an array stored its sorted form. -/
theorem devSaveJson_arr_ok {store store' : Store} {file : String}
    {l : List Record} {n : Nat}
    (h : devSaveJson store file (Content.arr l) = (store', SaveResult.ok n)) :
    store' = Store.set store file (Content.arr (sortRecords l)) ∧
      n = (sortRecords l).length := by
  by_cases hv : invalidFileName file = true
  · unfold devSaveJson at h
    rw [if_pos hv] at h
    rw [Prod.ext_iff] at h
    exact absurd h.2 (by simp)
  · have hv' : invalidFileName file = false := by
      revert hv
      cases invalidFileName file <;> simp
    rw [devSaveJson_arr_eq store file l hv'] at h
    by_cases hp : file = "programs.json" ∧ (sortRecords l).length > 4
    · rw [if_pos hp] at h
      rw [Prod.ext_iff] at h
      exact absurd h.2 (by simp)
    · rw [if_neg hp] at h
      rw [Prod.ext_iff] at h
      obtain ⟨h1, h2⟩ := h
      dsimp only at h1 h2
      refine ⟨h1.symm, ?_⟩
      injection h2 with h2
      exact h2.symm

/-- On a pair of records whose coerced `displayOrder`s collide only when the
raw fields agree, the JS comparator is negative exactly when the
lexicographic policy comparison is. -/
theorem cmpRecords_lt_iff_lex {a b : Record}
    (h : dval a = dval b → a.displayOrder = b.displayOrder) :
    cmpRecords a b < 0 ↔
      (dval a < dval b ∨
        (dval a = dval b ∧ strCmp (secKey a) (secKey b) < 0)) := by
  unfold cmpRecords
  by_cases hd : a.displayOrder = b.displayOrder
  · have hdv : dval a = dval b := by
      unfold dval
      rw [hd]
    rw [if_neg (by simp [hd])]
    simp [hdv, lt_irrefl]
  · have hdv : ¬ dval a = dval b := fun he => hd (h he)
    rw [if_pos hd]
    constructor
    · intro hlt
      exact Or.inl (by omega)
    · intro hor
      rcases hor with hlt | ⟨he, _⟩
      · omega
      · exact absurd he hdv

/-- Boolean form of `cmpRecords_lt_iff_lex`. -/
theorem ltb_agree {a b : Record}
    (h : dval a = dval b → a.displayOrder = b.displayOrder) :
    decide (cmpRecords a b < 0) = ltbLex a b := by
  unfold ltbLex
  exact decide_eq_decide.mpr (cmpRecords_lt_iff_lex h)

/-- On consistent inputs the endpoint's sort is the stable sort by the
lexicographic policy comparator. -/
theorem sortRecords_eq_lex {l : List Record}
    (hcons : ∀ a ∈ l, ∀ b ∈ l, dval a = dval b →
      a.displayOrder = b.displayOrder) :
    sortRecords l = stableSort ltbLex l := by
  unfold sortRecords
  exact stableSort_congr l (fun a ha b hb => ltb_agree (hcons a ha b hb))

/-- On consistent inputs the endpoint's sort output is ordered by the
policy relation. -/
theorem sortRecords_pairwise {l : List Record}
    (hcons : ∀ a ∈ l, ∀ b ∈ l, dval a = dval b →
      a.displayOrder = b.displayOrder) :
    (sortRecords l).Pairwise orderingPolicyLe := by
  rw [sortRecords_eq_lex hcons]
  exact pairwise_stableSort orderingPolicyLe ltbLex
    (fun x y h => ltbLex_true_le h) (fun x y h => ltbLex_false_le h)
    orderingPolicyLe_trans l

/-- The reorder-save rewrite keeps the list length. -/
theorem reorderSave_length (l : List Record) :
    (reorderSave l).length = l.length := by
  simp [reorderSave]

/-- After the reorder-save rewrite, the record at position `i` carries
`displayOrder = i`. -/
theorem reorderSave_getElem (l : List Record) (i : Nat)
    (h : i < (reorderSave l).length) :
    ((reorderSave l)[i]).displayOrder = some (i : Int) := by
  have h1 : i < l.enum.length := by
    rw [List.enum_length]
    rw [reorderSave_length] at h
    exact h
  simp [reorderSave, List.getElem_map, List.getElem_enum]

/-- The reorder-save rewrite yields a list on which the JS comparator never
ranks a later element strictly before an earlier one. -/
theorem reorderSave_pairwise (l : List Record) :
    (reorderSave l).Pairwise
      (fun a b => decide (cmpRecords b a < 0) = false) := by
  apply List.pairwise_iff_getElem.mpr
  intro i j hi hj hij
  have hdi : ((reorderSave l)[i]).displayOrder = some (i : Int) :=
    reorderSave_getElem l i hi
  have hdj : ((reorderSave l)[j]).displayOrder = some (j : Int) :=
    reorderSave_getElem l j hj
  apply decide_eq_false
  intro hlt
  unfold cmpRecords at hlt
  rw [if_pos (by rw [hdi, hdj]; simp; omega)] at hlt
  unfold dval at hlt
  rw [hdi, hdj] at hlt
  simp [Option.getD] at hlt
  omega

/-- The endpoint's sort leaves a reorder-save rewritten list unchanged. -/
theorem sortRecords_reorderSave (l : List Record) :
    sortRecords (reorderSave l) = reorderSave l :=
  stableSort_of_pairwise (reorderSave l) (reorderSave_pairwise l)

/-- C1: for every valid collection name and every JSON-serializable array of
records, a successful save through `/dev/save-json` followed by a load of the
same collection returns an array equivalent to the saved one — the loaded
array is exactly the endpoint's canonical reordering of the input, hence a
permutation of it (the store rewrites order but neither drops, duplicates nor
alters records). -/
theorem save_load_roundtrip (store store' : Store) (file : String)
    (l : List Record) (n : Nat)
    (hsave : devSaveJson store file (Content.arr l) = (store', SaveResult.ok n)) :
    loadJsonData store' file = some (Content.arr (sortRecords l)) ∧
      (sortRecords l).Perm l := by
  obtain ⟨h1, _⟩ := devSaveJson_arr_ok hsave
  subst h1
  constructor
  · simp [loadJsonData, Store.set]
  · exact stableSort_perm _ l

/-- Witness for C1 at a concrete save. -/
theorem save_load_roundtrip_witness :
    loadJsonData
        (Store.set emptyStore "members.json"
          (Content.arr (sortRecords [recBob, recAlice]))) "members.json"
      = some (Content.arr (sortRecords [recBob, recAlice])) ∧
      (sortRecords [recBob, recAlice]).Perm [recBob, recAlice] :=
  save_load_roundtrip emptyStore _ "members.json" [recBob, recAlice] 2 rfl

/-- C2: every array saved through the store is persisted sorted primarily by
ascending `displayOrder` with ties broken by the secondary alphabetic key
(`name` falling back to `title`), stated for inputs on which the comparator's
numeric coercion of `displayOrder` is injective on distinct raw values (all
collections either carry an explicit `displayOrder` everywhere or omit it
everywhere, and on mixed `undefined`-versus-`0` inputs ECMAScript leaves the
sort order implementation-defined); in particular two records both with
`displayOrder` 0 named "Bob" and "Alice" are written in the order Alice,
Bob. -/
theorem save_applies_ordering_policy (store store' : Store) (file : String)
    (l : List Record) (n : Nat)
    (hcons : ∀ a ∈ l, ∀ b ∈ l, dval a = dval b →
      a.displayOrder = b.displayOrder)
    (hsave : devSaveJson store file (Content.arr l) = (store', SaveResult.ok n)) :
    loadJsonData store' file = some (Content.arr (sortRecords l)) ∧
      (sortRecords l).Pairwise orderingPolicyLe ∧
      (∀ r : Record, r.name ≠ "" → secKey r = r.name) ∧
      (∀ r : Record, r.name = "" → secKey r = r.title) ∧
      sortRecords [recBob, recAlice] = [recAlice, recBob] := by
  obtain ⟨h1, _⟩ := devSaveJson_arr_ok hsave
  subst h1
  refine ⟨by simp [loadJsonData, Store.set], sortRecords_pairwise hcons,
    ?_, ?_, by decide⟩
  · intro r h
    simp [secKey, h]
  · intro r h
    by_cases ht : r.title = "" <;> simp [secKey, h, ht]

/-- Witness for C2 at the spec's Bob/Alice example. -/
theorem save_applies_ordering_policy_witness :
    loadJsonData
        (Store.set emptyStore "members.json"
          (Content.arr (sortRecords [recBob, recAlice]))) "members.json"
      = some (Content.arr (sortRecords [recBob, recAlice])) ∧
      (sortRecords [recBob, recAlice]).Pairwise orderingPolicyLe ∧
      (∀ r : Record, r.name ≠ "" → secKey r = r.name) ∧
      (∀ r : Record, r.name = "" → secKey r = r.title) ∧
      sortRecords [recBob, recAlice] = [recAlice, recBob] :=
  save_applies_ordering_policy emptyStore _ "members.json" [recBob, recAlice] 2
    (by decide) rfl

/-- C3: a save request whose file name does not end in ".json", or contains
"..", or contains "/", is rejected with the invalid-file error and the data
directory is left unchanged, whatever the content. -/
theorem save_rejects_invalid_names (store : Store) (file : String)
    (content : Content)
    (h : strEndsWith file ".json" = false ∨ strContains file ".." = true ∨
      strContains file "/" = true) :
    devSaveJson store file content = (store, SaveResult.error 400 "invalid file") := by
  have hv : invalidFileName file = true := by
    unfold invalidFileName
    rcases h with h | h | h <;> simp [h]
  unfold devSaveJson
  rw [if_pos hv]

/-- Witness for C3 at a traversal file name. -/
theorem save_rejects_invalid_names_witness :
    devSaveJson emptyStore "../members.json" (Content.other "x")
      = (emptyStore, SaveResult.error 400 "invalid file") :=
  save_rejects_invalid_names emptyStore "../members.json" (Content.other "x")
    (Or.inr (Or.inl (by decide)))

/-- C4: saving `programs.json` with more than 4 records is rejected with the
limit-exceeded error before anything is written (the store is unchanged),
while saving with exactly 4 records succeeds and writes the sorted array. -/
theorem programs_cap_enforced (store : Store) (l : List Record) :
    (l.length > 4 →
      devSaveJson store "programs.json" (Content.arr l)
        = (store, SaveResult.error 400 programsLimitMsg)) ∧
    (l.length = 4 →
      devSaveJson store "programs.json" (Content.arr l)
        = (Store.set store "programs.json" (Content.arr (sortRecords l)),
            SaveResult.ok 4)) := by
  have hlen : (sortRecords l).length = l.length := (stableSort_perm _ l).length_eq
  have hv : invalidFileName "programs.json" = false := by decide
  constructor
  · intro hgt
    rw [devSaveJson_arr_eq store "programs.json" l hv]
    rw [if_pos ⟨rfl, by omega⟩]
  · intro heq
    rw [devSaveJson_arr_eq store "programs.json" l hv]
    rw [if_neg (by rintro ⟨_, hgt⟩; omega)]
    rw [hlen, heq]

/-- Witness for C4: a 5-record save is rejected leaving the store unchanged,
a 4-record save succeeds. -/
theorem programs_cap_enforced_witness :
    devSaveJson emptyStore "programs.json"
        (Content.arr [progRec 0 "a", progRec 1 "b", progRec 2 "c",
          progRec 3 "d", progRec 4 "e"])
      = (emptyStore, SaveResult.error 400 programsLimitMsg) ∧
    devSaveJson emptyStore "programs.json"
        (Content.arr [progRec 0 "a", progRec 1 "b", progRec 2 "c", progRec 3 "d"])
      = (Store.set emptyStore "programs.json"
          (Content.arr (sortRecords
            [progRec 0 "a", progRec 1 "b", progRec 2 "c", progRec 3 "d"])),
          SaveResult.ok 4) :=
  ⟨(programs_cap_enforced emptyStore _).1 (by decide),
   (programs_cap_enforced emptyStore _).2 (by decide)⟩

/-- C5: persisting a manual drag-reorder rewrites every record's
`displayOrder` to its 0-based position, the save succeeds with the rewritten
array stored verbatim (the auto-sort leaves it unchanged), and reading the
collection back yields records whose `displayOrder` equals their 0-based
index in the new order. -/
theorem reorder_save_zero_based (store : Store) (l : List Record) :
    devSaveJson store "members.json" (Content.arr (reorderSave l))
      = (Store.set store "members.json" (Content.arr (reorderSave l)),
          SaveResult.ok l.length) ∧
    loadJsonData
        (Store.set store "members.json" (Content.arr (reorderSave l)))
        "members.json"
      = some (Content.arr (reorderSave l)) ∧
    ∀ i : Nat, ∀ h : i < (reorderSave l).length,
      ((reorderSave l)[i]).displayOrder = some (i : Int) := by
  have hv : invalidFileName "members.json" = false := by decide
  refine ⟨?_, by simp [loadJsonData, Store.set],
    fun i h => reorderSave_getElem l i h⟩
  rw [devSaveJson_arr_eq store "members.json" (reorderSave l) hv]
  rw [if_neg (by rintro ⟨hfile, _⟩; exact absurd hfile (by decide))]
  rw [sortRecords_reorderSave, reorderSave_length]

/-- Witness for C5 at a concrete two-element reorder. -/
theorem reorder_save_zero_based_witness :
    devSaveJson emptyStore "members.json"
        (Content.arr (reorderSave [recBob, recAlice]))
      = (Store.set emptyStore "members.json"
          (Content.arr (reorderSave [recBob, recAlice])), SaveResult.ok 2) ∧
    ((reorderSave [recBob, recAlice])[1]).displayOrder = some 1 :=
  ⟨(reorder_save_zero_based emptyStore [recBob, recAlice]).1,
   (reorder_save_zero_based emptyStore [recBob, recAlice]).2.2 1 (by decide)⟩

/-- C10: when the content of a save-JSON request is not an array, the
ordering policy and the programs cap are skipped: the value is written
unchanged (even to `programs.json`) and the success response reports
count 1. -/
theorem non_array_saved_unchanged (store : Store) (file : String) (v : String)
    (hv : invalidFileName file = false) :
    devSaveJson store file (Content.other v)
      = (Store.set store file (Content.other v), SaveResult.ok 1) :=
  devSaveJson_other_eq store file v hv

/-- Witness for C10: a non-array value saved to `programs.json` bypasses the
cap and reports count 1. -/
theorem non_array_saved_unchanged_witness :
    devSaveJson emptyStore "programs.json" (Content.other "big-object")
      = (Store.set emptyStore "programs.json" (Content.other "big-object"),
          SaveResult.ok 1) :=
  non_array_saved_unchanged emptyStore "programs.json" "big-object" (by decide)

/-- C6 counterexample: the upload filter does not restrict the extension to
the allowed image set — the regex `/jpeg|jpg|png|webp|gif/` is unanchored, so
the extension ".fakepng" (not an allowed image extension) together with an
allowed MIME type is accepted. -/
theorem upload_filter_counterexample :
    fileFilterAccepts "x.fakepng" "image/png" = true ∧
    extname "x.fakepng" = ".fakepng" ∧
    specAllowedExt (extname "x.fakepng") = false ∧
    specAllowedMime "image/png" = true := by
  refine ⟨by decide, by decide, by decide, by decide⟩

/-- C6 amended: an upload is accepted exactly when both the lower-cased file
extension and the MIME type contain one of the substrings jpeg, jpg, png,
webp, gif (unanchored regex test) — both checks must pass; genuine allowed
extension/MIME pairs are accepted, and a ".png" file with a non-image MIME
type such as "application/x-msdownload" is rejected. -/
theorem upload_filter_amended :
    (∀ o m : String, fileFilterAccepts o m = true ↔
      (matchesAllowed (lowerStr (extname o)) = true ∧ matchesAllowed m = true)) ∧
    (∀ o m : String, specAllowedExt (extname o) = true →
      specAllowedMime m = true → fileFilterAccepts o m = true) ∧
    fileFilterAccepts "x.png" "application/x-msdownload" = false := by
  refine ⟨?_, ?_, by decide⟩
  · intro o m
    simp [fileFilterAccepts]
  · intro o m he hm
    unfold fileFilterAccepts
    have he' : matchesAllowed (lowerStr (extname o)) = true := by
      simp [specAllowedExt] at he
      rcases he with h | h | h | h | h <;>
        · rw [h]
          decide
    have hm' : matchesAllowed m = true := by
      simp [specAllowedMime] at hm
      rcases hm with h | h | h | h | h <;>
        · rw [h]
          decide
    rw [he', hm']
    rfl

/-- Witness for C6's amended claim: a genuine PNG upload is accepted. -/
theorem upload_filter_amended_witness :
    fileFilterAccepts "photo.PNG" "image/png" = true :=
  upload_filter_amended.2.1 "photo.PNG" "image/png" (by decide) (by decide)

/-- C7 counterexample: for the unrecognized category "evil" the file is
stored under `uploads/misc/`, yet the returned public path names
`/uploads/evil/`, so the returned path does not refer to the directory the
file was actually stored in. -/
theorem upload_category_counterexample :
    storageCategory "evil" = "misc" ∧
    uploadPublicPath "evil" "f.png" = "/uploads/evil/f.png" ∧
    uploadStoredPath "evil" "f.png" = "uploads/misc/f.png" ∧
    uploadPublicPath "evil" "f.png"
      ≠ "/uploads/" ++ storageCategory "evil" ++ "/" ++ "f.png" := by
  refine ⟨by decide, by decide, by decide, by decide⟩

/-- C7 amended: the storage category is always one of
{members, news, hero, programs, misc} (an unrecognized or absent category
silently maps to misc), but the returned public path
`/uploads/<category>/<file>` is built from the *raw* requested category, so
it refers to the directory the file was stored in exactly when the requested
category is in the allowed set (or absent, defaulting to misc). -/
theorem upload_category_amended (q f : String) :
    allowedCategories.contains (storageCategory q) = true ∧
    (allowedCategories.contains (rawCategory q) = true →
      uploadPublicPath q f = "/uploads/" ++ storageCategory q ++ "/" ++ f) ∧
    uploadPublicPath q f = "/uploads/" ++ rawCategory q ++ "/" ++ f := by
  refine ⟨?_, ?_, rfl⟩
  · unfold storageCategory
    by_cases h : allowedCategories.contains (rawCategory q) = true
    · rw [if_pos h]
      exact h
    · rw [if_neg h]
      decide
  · intro h
    unfold uploadPublicPath storageCategory
    rw [if_pos h]

/-- Witness for C7's amended claim: for the allowed category "members" the
public path names the real storage directory. -/
theorem upload_category_amended_witness :
    uploadPublicPath "members" "a.png"
      = "/uploads/" ++ storageCategory "members" ++ "/" ++ "a.png" :=
  (upload_category_amended "members" "a.png").2.1 (by decide)

/-- C8 counterexample: the delete guard is a textual prefix check on the raw
path, so "/uploads/../index.html" passes it even though its resolved target
`client/public/index.html` lies outside the public uploads root, and the
endpoint deletes that outside file and reports success. -/
theorem delete_traversal_counterexample :
    deleteGuardOk "/uploads/../index.html" = true ∧
    resolvedDeleteSegs "/uploads/../index.html"
      = ["client", "public", "index.html"] ∧
    deleteTargetUnderRoot "/uploads/../index.html" = false ∧
    devDeleteUpload [["client", "public", "index.html"]]
        "/uploads/../index.html"
      = ([], DeleteResult.ok) := by
  refine ⟨by decide, by decide, by decide, by decide⟩

/-- C8 amended: a delete request is rejected with the invalid-path error and
leaves the filesystem untouched exactly when the raw path is empty or does
not start with the literal prefix "/uploads/" (no resolution of ".." is
performed, so prefix-passing paths may resolve outside the uploads root); a
prefix-passing path whose resolved target is absent fails with not-found and
leaves the filesystem untouched; otherwise the target file is removed and
success is returned. -/
theorem delete_endpoint_amended (fs : List (List String)) (p : String) :
    (deleteGuardOk p = false →
      devDeleteUpload fs p = (fs, DeleteResult.invalidPath)) ∧
    (deleteGuardOk p = true → fs.contains (resolvedDeleteSegs p) = false →
      devDeleteUpload fs p = (fs, DeleteResult.notFound)) ∧
    (deleteGuardOk p = true → fs.contains (resolvedDeleteSegs p) = true →
      devDeleteUpload fs p
        = (fs.filter (fun q => q ≠ resolvedDeleteSegs p), DeleteResult.ok) ∧
      resolvedDeleteSegs p ∉
        fs.filter (fun q => q ≠ resolvedDeleteSegs p)) := by
  refine ⟨?_, ?_, ?_⟩
  · intro hg
    unfold devDeleteUpload
    rw [if_pos (by simp [hg])]
  · intro hg hc
    unfold devDeleteUpload
    rw [if_neg (by simp [hg])]
    simp only [hc]
    rw [if_neg (by simp)]
  · intro hg hc
    constructor
    · unfold devDeleteUpload
      rw [if_neg (by simp [hg])]
      simp only [hc]
      simp
    · simp

/-- Witness for C8's amended claim: guard rejection, missing file, and a
successful in-root deletion. -/
theorem delete_endpoint_amended_witness :
    devDeleteUpload [["client", "public", "uploads", "a.png"]] "nope"
      = ([["client", "public", "uploads", "a.png"]], DeleteResult.invalidPath) ∧
    devDeleteUpload [] "/uploads/a.png" = ([], DeleteResult.notFound) ∧
    devDeleteUpload [["client", "public", "uploads", "a.png"]] "/uploads/a.png"
      = ([["client", "public", "uploads", "a.png"]].filter
          (fun q => q ≠ resolvedDeleteSegs "/uploads/a.png"), DeleteResult.ok) :=
  ⟨(delete_endpoint_amended _ "nope").1 (by decide),
   (delete_endpoint_amended [] "/uploads/a.png").2.1 (by decide) (by decide),
   ((delete_endpoint_amended _ "/uploads/a.png").2.2 (by decide) (by decide)).1⟩

/-- C9 counterexample: with `LOCAL_ADMIN_TOKEN` set to the empty string the
token is set and the request header equals it, yet the gate still rejects
(the `!TOKEN` falsy check fires), contradicting "when the token is set, the
gate passes exactly those requests whose header equals the token". -/
theorem token_gate_counterexample :
    requireDevToken (some "") (some "") = false ∧
    (some "" : Option String) ≠ none := by
  refine ⟨by decide, by decide⟩

/-- C9 amended: when the token environment variable is unset *or set to the
empty string* the gate rejects every request whatever the header (it fails
closed, never open); when the token is set to a non-empty value the gate
passes exactly those requests whose header equals the token. -/
theorem token_gate_amended (token header : Option String) :
    (tokenFalsy token = true → requireDevToken token header = false) ∧
    (∀ t : String, token = some t → t ≠ "" →
      (requireDevToken token header = true ↔ header = some t)) := by
  constructor
  · intro h
    simp [requireDevToken, h]
  · rintro t rfl ht
    simp [requireDevToken, tokenFalsy, ht]

/-- Witness for C9's amended claim: an unset token rejects a guessing
header, a configured token admits the matching header. -/
theorem token_gate_amended_witness :
    requireDevToken none (some "guess") = false ∧
    requireDevToken (some "secret") (some "secret") = true :=
  ⟨(token_gate_amended none (some "guess")).1 (by decide),
   ((token_gate_amended (some "secret") (some "secret")).2 "secret" rfl
     (by decide)).mpr rfl⟩
